import Mathlib

/-!
Shallow embedding of the analysis notebooks of the repository
`scrna-parameter-estimation` (power-curve notebook, simulation-data
notebook, and the SAVER comparison notebook), together with theorems
settling the specification's claims about them.

Tabular data is modelled by lists of records (a pandas `DataFrame` whose
rows are structure values), count matrices by functions `Fin g → Fin c → α`
or by lists of columns, and p-values / counts by rationals.  Missing values
produced by a left merge (pandas `NaN`) are modelled by `Option`.
Fallible file reads are modelled by `Option`-valued read functions, and an
uncaught exception in the notebook loop by an overall `none` result.
-/

/-! ## Power-curve notebook (source file `src/unnamed/part_000`) -/

/-- A row of the memento estimator output table (`mem` in the notebook):
the `tx` identifier column (renamed to `SNP` for the merge), the `gene`
column, and the `de_pval` p-value column. -/
structure MemRow where
  tx : String
  gene : String
  de_pval : ℚ
deriving DecidableEq

/-- A row of the MatrixEQTL pseudobulk output table (`meq` in the
notebook): the `SNP` and `gene` identifier columns and the `p-value`
column. -/
structure MeqRow where
  SNP : String
  gene : String
  pvalue : ℚ
deriving DecidableEq

/-- A row of the merged table: the columns of the left row (`mem`) plus
the `p-value` column from `meq`, which is `none` (pandas `NaN`) when the
left row had no match. -/
structure MergedRow where
  tx : String
  gene : String
  de_pval : ℚ
  pvalue : Option ℚ
deriving DecidableEq

/-- The join condition of `mem.rename(columns={tx: SNP}).merge(meq, on=[SNP, gene])`:
a right row matches a left row when both key columns agree. -/
def matchKey (m : MemRow) (q : MeqRow) : Bool :=
  q.SNP == m.tx && q.gene == m.gene

/-- The merged rows contributed by one left row: one per matching right
row, or a single row with a missing `p-value` when no right row matches. -/
def mergeRowsFor (meq : List MeqRow) (m : MemRow) : List MergedRow :=
  if (meq.filter (matchKey m)).isEmpty then [⟨m.tx, m.gene, m.de_pval, none⟩]
  else (meq.filter (matchKey m)).map fun q => ⟨m.tx, m.gene, m.de_pval, some q.pvalue⟩

/-- Pandas left merge on `[SNP, gene]`: every left row is emitted once per
matching right row, or once with a missing `p-value` when no right row
matches. -/
def leftMerge (mem : List MemRow) (meq : List MeqRow) : List MergedRow :=
  mem.flatMap (mergeRowsFor meq)

/-- Modelled from the spec: under the join-cardinality invariant every
left row has exactly one merged row — this one.  It carries the match's
p-value when a match exists and a missing value otherwise. -/
def mergedRowFor (meq : List MeqRow) (m : MemRow) : MergedRow :=
  match meq.filter (matchKey m) with
  | [] => ⟨m.tx, m.gene, m.de_pval, none⟩
  | q :: _ => ⟨m.tx, m.gene, m.de_pval, some q.pvalue⟩

/-- The boolean mask `merged[p-value] < 0.05`; a missing value compares
false, as pandas `NaN < 0.05` is `False`. -/
def pvalueSig : Option ℚ → Bool
  | some p => decide (p < 1/20)
  | none => false

/-- The `Pseudobulk` power of one condition:
`merged[merged[p-value] < 0.05].shape[0] / mem.shape[0]`. -/
def pseudobulkPower (mem : List MemRow) (meq : List MeqRow) : ℚ :=
  (((leftMerge mem meq).countP fun r => pvalueSig r.pvalue : ℕ) : ℚ) /
    ((mem.length : ℕ) : ℚ)

/-- The `memento` power of one condition:
`mem.query(de_pval < 0.05).shape[0] / mem.shape[0]`. -/
def mementoPower (mem : List MemRow) : ℚ :=
  ((mem.countP fun r => decide (r.de_pval < 1/20) : ℕ) : ℚ) /
    ((mem.length : ℕ) : ℚ)

/-- A record appended to `result_df`: the tuple
`(pop, num_ind, resample, ct, method, power)`. -/
structure ResultRec where
  pop : String
  num_ind : ℕ
  resample : ℕ
  ct : String
  method : String
  power : ℚ
deriving DecidableEq

/-- A condition of the nested loop: `(pop, num_ind, resample, ct)`. -/
abbrev Cond : Type := String × ℕ × ℕ × String

/-- The nested enumeration
`for pop in pops: for num_ind in num_inds: for resample in range(num_resample): for ct in cts`,
in loop order. -/
def conditions (pops : List String) (numInds : List ℕ) (numResample : ℕ)
    (cts : List String) : List Cond :=
  pops ×ˢ (numInds ×ˢ ((List.range numResample) ×ˢ cts))

/-- The body of the loop for one condition `(pop, num_ind, resample, ct)`:
read the MatrixEQTL file keyed by `(pop, ct, num_ind, resample)`, then the
memento file, and append the two labelled records.  A failed read yields
`none`: the exception propagates uncaught. -/
def conditionRecords
    (readMeq : String → String → ℕ → ℕ → Option (List MeqRow))
    (readMem : String → String → ℕ → ℕ → Option (List MemRow))
    (c : Cond) : Option (List ResultRec) :=
  match readMeq c.1 c.2.2.2 c.2.1 c.2.2.1 with
  | none => none
  | some meq =>
    match readMem c.1 c.2.2.2 c.2.1 c.2.2.1 with
    | none => none
    | some mem =>
      some [⟨c.1, c.2.1, c.2.2.1, c.2.2.2, "Pseudobulk", pseudobulkPower mem meq⟩,
            ⟨c.1, c.2.1, c.2.2.1, c.2.2.2, "memento", mementoPower mem⟩]

/-- Run the loop over a list of conditions, accumulating the records in
order; the first failing body aborts the whole computation with no result
table (the notebook halts on the exception). -/
def runConditions (body : Cond → Option (List ResultRec)) :
    List Cond → Option (List ResultRec)
  | [] => some []
  | c :: rest =>
    match body c with
    | none => none
    | some recs =>
      match runConditions body rest with
      | none => none
      | some more => some (recs ++ more)

/-- The whole power-curve computation of the notebook cell building
`result_df`. -/
def powerCurve (pops : List String) (numInds : List ℕ) (numResample : ℕ)
    (cts : List String)
    (readMeq : String → String → ℕ → ℕ → Option (List MeqRow))
    (readMem : String → String → ℕ → ℕ → Option (List MemRow)) :
    Option (List ResultRec) :=
  runConditions (conditionRecords readMeq readMem)
    (conditions pops numInds numResample cts)

/-- The records of one condition when both reads succeed, with tables
given by total functions `fMeq` and `fMem`. -/
def totalRecords (fMeq : String → String → ℕ → ℕ → List MeqRow)
    (fMem : String → String → ℕ → ℕ → List MemRow) (c : Cond) :
    List ResultRec :=
  [⟨c.1, c.2.1, c.2.2.1, c.2.2.2, "Pseudobulk",
      pseudobulkPower (fMem c.1 c.2.2.2 c.2.1 c.2.2.1) (fMeq c.1 c.2.2.2 c.2.1 c.2.2.1)⟩,
   ⟨c.1, c.2.1, c.2.2.1, c.2.2.2, "memento",
      mementoPower (fMem c.1 c.2.2.2 c.2.1 c.2.2.1)⟩]

/-- The result table of a fully successful run. -/
def powerCurveTotal (pops : List String) (numInds : List ℕ)
    (numResample : ℕ) (cts : List String)
    (fMeq : String → String → ℕ → ℕ → List MeqRow)
    (fMem : String → String → ℕ → ℕ → List MemRow) : List ResultRec :=
  (conditions pops numInds numResample cts).flatMap (totalRecords fMeq fMem)

/-- The label of a result record: the `(pop, num_ind, resample, ct, method)`
tuple. -/
def recordLabel (r : ResultRec) : String × ℕ × ℕ × String × String :=
  (r.pop, r.num_ind, r.resample, r.ct, r.method)

/-- The two labels contributed by one condition, in append order. -/
def condLabels (c : Cond) : List (String × ℕ × ℕ × String × String) :=
  [(c.1, c.2.1, c.2.2.1, c.2.2.2, "Pseudobulk"),
   (c.1, c.2.1, c.2.2.1, c.2.2.2, "memento")]

/-- The helper `drop_zero_col(df) = df.loc[:, (df != 0).any(axis=0)].copy()`:
keep exactly the columns that have at least one nonzero entry.  A dataframe
is modelled as its list of columns, each column the list of its entries. -/
def drop_zero_col (cols : List (List ℚ)) : List (List ℚ) :=
  cols.filter fun col => col.any fun x => x != 0

/-! ## Simulation-data notebook (source file `src/unnamed/part_001`) -/

/-- The mean of one column of a count matrix stored as a list of entries,
`X.mean(axis=0)` for that column. -/
def colMean (col : List ℚ) : ℚ :=
  col.sum / ((col.length : ℕ) : ℚ)

/-- The gene filter `subset[:, (subset.X.mean(axis=0) > 2.5).A1]`: keep
exactly the columns whose mean strictly exceeds the threshold. -/
def filterGenesByMean (t : ℚ) (cols : List (List ℚ)) : List (List ℚ) :=
  cols.filter fun col => decide (t < colMean col)

/-- The mean-expression threshold `2.5` of the notebook. -/
def meanThreshold : ℚ := 5/2

/-- Modelled from the spec: `sc.pp.subsample(adata, n_obs=n, copy=True)` is
an external scanpy call whose implementation is not part of this
repository; per the spec, subsampling selects `n_obs` of the rows of the
matrix.  The random row selection is modelled by applying the call to an
arbitrary permutation `shuffled` of the original rows and keeping the
first `n` of them. -/
def subsample {α : Type} (n : ℕ) (shuffled : List α) : List α :=
  shuffled.take n

/-! ## Vector statistics shared by the SAVER notebook
(source file `src/analysis/method_comparisons/estimation/saver_comparison.ipynb`)

The R functions `mean`, `var`, `cov` and `cor` are embedded over an
arbitrary field (instantiated at `ℚ` or `ℝ` in the theorems); `var` and
`cov` use R's sample (n − 1) denominator, and division by zero yields `0`
as in Lean's field conventions. -/

/-- R `mean(x)` of a vector. -/
def rMean {n : ℕ} {α : Type} [Field α] (x : Fin n → α) : α :=
  (∑ i, x i) / ((n : ℕ) : α)

/-- R `var(x)`: sample variance with denominator `n - 1`. -/
def rVar {n : ℕ} {α : Type} [Field α] (x : Fin n → α) : α :=
  (∑ i, (x i - rMean x) ^ 2) / (((n - 1 : ℕ) : ℕ) : α)

/-- R `cov(x, y)`: sample covariance with denominator `n - 1`. -/
def rCov {n : ℕ} {α : Type} [Field α] (x y : Fin n → α) : α :=
  (∑ i, (x i - rMean x) * (y i - rMean y)) / (((n - 1 : ℕ) : ℕ) : α)

/-- R `colSums(data)` of a genes × cells matrix: per-cell sums over genes. -/
def colSums {g c : ℕ} {α : Type} [Field α] (data : Fin g → Fin c → α) :
    Fin c → α :=
  fun j => ∑ i, data i j

/-- The per-cell size factors `sf <- colSums(data)/mean(colSums(data))`. -/
def sf {g c : ℕ} {α : Type} [Field α] (data : Fin g → Fin c → α) :
    Fin c → α :=
  fun j => colSums data j / rMean (colSums data)

/-- Pearson correlation of two vectors, R `cor`:
`cov(x, y) / (sd(x) * sd(y))`, with the square root passed as a function
(it is `Real.sqrt` in the theorems). -/
def pearson {n : ℕ} {α : Type} [Field α] (sqrtFn : α → α) (x y : Fin n → α) :
    α :=
  rCov x y / (sqrtFn (rVar x) * sqrtFn (rVar y))

/-! ## SAVER shrinkage-adjustment cells -/

/-- The scaled estimate matrix `sweep(saver_obj$estimate, 2, sf, "*")`:
column `j` multiplied by `sfv j`. -/
def sweepScale {g c : ℕ} {α : Type} [Field α]
    (estimate : Fin g → Fin c → α) (sfv : Fin c → α) :
    Fin g → Fin c → α :=
  fun i j => estimate i j * sfv j

/-- The per-gene reliability factor `adj.vec`:
`adj.vec[i] <- sqrt(var(estimate[i,]*sf) / (var(estimate[i,]*sf) + mean(se[i,]^2*sf^2)))`.
(The `na.rm = TRUE` of the notebook is vacuous in this idealisation, which
has no missing values.) -/
def adjVec {g c : ℕ} {α : Type} [Field α] (sqrtFn : α → α)
    (estimate se : Fin g → Fin c → α) (sfv : Fin c → α) : Fin g → α :=
  fun i =>
    sqrtFn (rVar (fun j => estimate i j * sfv j) /
      (rVar (fun j => estimate i j * sfv j) +
        rMean (fun j => se i j ^ 2 * sfv j ^ 2)))

/-- The outer product `scale.factor <- outer(adj.vec, adj.vec)`. -/
def scaleFactor {g c : ℕ} {α : Type} [Field α] (sqrtFn : α → α)
    (estimate se : Fin g → Fin c → α) (sfv : Fin c → α) :
    Fin g → Fin g → α :=
  fun i j => adjVec sqrtFn estimate se sfv i * adjVec sqrtFn estimate se sfv j

/-- The raw correlation matrix
`temp.cor <- cor(t(sweep(saver_obj$estimate, 2, sf, "*")))`: the Pearson
correlation between rows of the scaled estimate matrix. -/
def tempCor {g c : ℕ} {α : Type} [Field α] (sqrtFn : α → α)
    (estimate : Fin g → Fin c → α) (sfv : Fin c → α) : Fin g → Fin g → α :=
  fun i j =>
    pearson sqrtFn (fun k => sweepScale estimate sfv i k)
      (fun k => sweepScale estimate sfv j k)

/-- The shrinkage-adjusted correlation matrix
`saver.cor <- temp.cor * scale.factor` (elementwise product). -/
def saverCor {g c : ℕ} {α : Type} [Field α] (sqrtFn : α → α)
    (estimate se : Fin g → Fin c → α) (sfv : Fin c → α) :
    Fin g → Fin g → α :=
  fun i j =>
    tempCor sqrtFn estimate sfv i j * scaleFactor sqrtFn estimate se sfv i j

/-! ## Theorems -/

/-- C9: `drop_zero_col` keeps exactly the columns having a nonzero entry,
each unchanged and in their original relative order.  (The embedding is
purely functional, so the input dataframe is never mutated; the `.copy()`
of the source is the identity here.) -/
theorem drop_zero_col_keeps_nonzero_columns (cols : List (List ℚ)) :
    (∀ col ∈ drop_zero_col cols, (∃ x ∈ col, x ≠ 0) ∧ col ∈ cols) ∧
    (∀ col ∈ cols, (∃ x ∈ col, x ≠ 0) → col ∈ drop_zero_col cols) ∧
    (drop_zero_col cols).Sublist cols := by
  refine ⟨?_, ?_, List.filter_sublist cols⟩
  · intro col hcol
    rw [drop_zero_col, List.mem_filter] at hcol
    exact ⟨by simpa [List.any_eq_true, bne_iff_ne] using hcol.2, hcol.1⟩
  · intro col hcol hnz
    rw [drop_zero_col, List.mem_filter]
    exact ⟨hcol, by simpa [List.any_eq_true, bne_iff_ne] using hnz⟩

/-- Witness for C9 at a concrete dataframe. -/
theorem drop_zero_col_keeps_nonzero_columns_witness :
    [(0 : ℚ), 1] ∈ drop_zero_col [[(0 : ℚ), 1], [0, 0]] :=
  (drop_zero_col_keeps_nonzero_columns [[(0 : ℚ), 1], [0, 0]]).2.1
    [(0 : ℚ), 1] (by decide) (by decide)

/-- C5: the mean-expression gene filter retains exactly the columns whose
mean strictly exceeds the threshold `2.5`, each unchanged and in their
original relative order; rows are untouched since every kept column is
kept whole. -/
theorem filter_genes_by_mean_spec (cols : List (List ℚ)) :
    (∀ col ∈ filterGenesByMean meanThreshold cols,
        meanThreshold < colMean col ∧ col ∈ cols) ∧
    (∀ col ∈ cols, meanThreshold < colMean col →
        col ∈ filterGenesByMean meanThreshold cols) ∧
    (filterGenesByMean meanThreshold cols).Sublist cols := by
  refine ⟨?_, ?_, List.filter_sublist cols⟩
  · intro col hcol
    rw [filterGenesByMean, List.mem_filter] at hcol
    exact ⟨by simpa using hcol.2, hcol.1⟩
  · intro col hcol ht
    rw [filterGenesByMean, List.mem_filter]
    exact ⟨hcol, by simpa using ht⟩

/-- Witness for C5 at a concrete dataframe. -/
theorem filter_genes_by_mean_spec_witness :
    [(3 : ℚ), 3] ∈ filterGenesByMean meanThreshold [[(3 : ℚ), 3], [1, 1]] :=
  (filter_genes_by_mean_spec [[(3 : ℚ), 3], [1, 1]]).2.1 [(3 : ℚ), 3]
    (by simp) (by norm_num [meanThreshold, colMean])

/-- C6: subsampling a matrix with at least `n` rows down to `n` rows
(`sc.pp.subsample(..., n_obs=n)`) yields exactly `n` rows, whatever
permutation of the input rows the random selection produced. -/
theorem subsample_row_count {α : Type} (rows shuffled : List α) (n : ℕ)
    (hperm : shuffled.Perm rows) (hn : n ≤ rows.length) :
    (subsample n shuffled).length = n := by
  simp [subsample, List.length_take, hperm.length_eq, Nat.min_eq_left hn]

/-- Witness for C6 at a concrete matrix. -/
theorem subsample_row_count_witness : (subsample 2 [(5 : ℚ), 7, 9]).length = 2 :=
  subsample_row_count [(5 : ℚ), 7, 9] [(5 : ℚ), 7, 9] 2 (List.Perm.refl _)
    (by decide)

/-- C10: whenever the mean of the per-cell column sums is nonzero, the
size-factor vector `sf = colSums/mean(colSums)` has mean exactly `1`. -/
theorem sf_mean_one {g c : ℕ} (data : Fin g → Fin c → ℚ)
    (h : rMean (colSums data) ≠ 0) : rMean (sf data) = 1 := by
  have hc : c ≠ 0 := by
    rintro rfl
    exact h (by simp [rMean])
  have hcq : ((c : ℕ) : ℚ) ≠ 0 := Nat.cast_ne_zero.mpr hc
  have hS : (∑ j, colSums data j) ≠ 0 := by
    intro h0
    exact h (by simp [rMean, h0])
  simp only [sf, rMean] at *
  rw [← Finset.sum_div]
  field_simp

/-- Witness for C10 at a concrete count matrix. -/
theorem sf_mean_one_witness :
    rMean (sf (fun (_ : Fin 1) (j : Fin 2) => if j = 0 then (1 : ℚ) else 3)) = 1 :=
  sf_mean_one (fun (_ : Fin 1) (j : Fin 2) => if j = 0 then (1 : ℚ) else 3)
    (by norm_num [rMean, colSums, Fin.sum_univ_two])

/-- Under the join-cardinality invariant, each left row contributes exactly
its single merged row. -/
theorem mergeRowsFor_eq_single (meq : List MeqRow) (m : MemRow)
    (h : (meq.filter (matchKey m)).length ≤ 1) :
    mergeRowsFor meq m = [mergedRowFor meq m] := by
  rw [mergeRowsFor, mergedRowFor]
  cases hf : meq.filter (matchKey m) with
  | nil => simp
  | cons q rest =>
    cases rest with
    | nil => simp
    | cons q' rest' => rw [hf] at h; simp at h

/-- C2: under the join-cardinality invariant (every `(SNP, gene)` pair of
the estimator table has at most one match in the differential-expression
table), the left merge emits exactly one row per estimator row, and the
merged table has exactly as many rows as the estimator table. -/
theorem leftMerge_one_row_per_left_row (mem : List MemRow) (meq : List MeqRow)
    (h : ∀ m ∈ mem, (meq.filter (matchKey m)).length ≤ 1) :
    leftMerge mem meq = mem.map (mergedRowFor meq) ∧
    (leftMerge mem meq).length = mem.length := by
  have heq : leftMerge mem meq = mem.map (mergedRowFor meq) := by
    induction mem with
    | nil => rfl
    | cons m rest ih =>
      rw [leftMerge, List.flatMap_cons,
        mergeRowsFor_eq_single meq m (h m (List.mem_cons_self m rest)),
        ← leftMerge, ih fun m' hm' => h m' (List.mem_cons_of_mem m hm'),
        List.map_cons, List.singleton_append]
  exact ⟨heq, by rw [heq, List.length_map]⟩

/-- The merged table never has fewer rows than the estimator table and,
under the join-cardinality invariant, exactly as many (shared helper). -/
theorem leftMerge_length_of_unique (mem : List MemRow) (meq : List MeqRow)
    (h : ∀ m ∈ mem, (meq.filter (matchKey m)).length ≤ 1) :
    (leftMerge mem meq).length = mem.length := by
  induction mem with
  | nil => rfl
  | cons m rest ih =>
    rw [leftMerge, List.flatMap_cons, List.length_append,
      mergeRowsFor_eq_single meq m (h m (List.mem_cons_self m rest)),
      ← leftMerge, ih fun m' hm' => h m' (List.mem_cons_of_mem m hm')]
    simp [Nat.add_comm]

/-- Both power values of one condition lie in `[0, 1]` whenever the
estimator table is nonempty (else the source divides by zero and raises)
and the join-cardinality invariant holds (shared helper). -/
theorem power_bounds_aux (mem : List MemRow) (meq : List MeqRow)
    (h : ∀ m ∈ mem, (meq.filter (matchKey m)).length ≤ 1) (hne : mem ≠ []) :
    (0 ≤ pseudobulkPower mem meq ∧ pseudobulkPower mem meq ≤ 1) ∧
    (0 ≤ mementoPower mem ∧ mementoPower mem ≤ 1) := by
  have hpos : (0 : ℚ) < ((mem.length : ℕ) : ℚ) := by
    exact_mod_cast List.length_pos.mpr hne
  have hpb : ((leftMerge mem meq).countP fun r => pvalueSig r.pvalue) ≤ mem.length := by
    rw [← leftMerge_length_of_unique mem meq h]
    exact List.countP_le_length _
  have hmm : (mem.countP fun r => decide (r.de_pval < 1/20)) ≤ mem.length :=
    List.countP_le_length _
  refine ⟨⟨div_nonneg (by positivity) hpos.le, ?_⟩,
          ⟨div_nonneg (by positivity) hpos.le, ?_⟩⟩
  · rw [pseudobulkPower, div_le_one hpos]
    exact_mod_cast hpb
  · rw [mementoPower, div_le_one hpos]
    exact_mod_cast hmm

/-- Every record of a successful run of the loop comes from the body of
some enumerated condition (shared helper). -/
theorem runConditions_mem_source (body : Cond → Option (List ResultRec)) :
    ∀ (l : List Cond) (res : List ResultRec), runConditions body l = some res →
      ∀ r ∈ res, ∃ c ∈ l, ∃ recs, body c = some recs ∧ r ∈ recs := by
  intro l
  induction l with
  | nil =>
    intro res hres r hr
    rw [runConditions] at hres
    cases hres
    cases hr
  | cons c rest ih =>
    intro res hres r hr
    rw [runConditions] at hres
    cases hb : body c with
    | none => rw [hb] at hres; cases hres
    | some recs =>
      rw [hb] at hres
      cases hrest : runConditions body rest with
      | none => rw [hrest] at hres; cases hres
      | some more =>
        rw [hrest] at hres
        cases hres
        rcases List.mem_append.mp hr with hcase | hcase
        · exact ⟨c, List.mem_cons_self c rest, recs, hb, hcase⟩
        · obtain ⟨c', hc', recs', hb', hr'⟩ := ih more hrest r hcase
          exact ⟨c', List.mem_cons_of_mem c hc', recs', hb', hr'⟩

/-- C1: every power value in the table produced by the power-curve loop —
for both the `Pseudobulk` and the `memento` method, over every condition —
lies in `[0, 1]`, for arbitrary input tables satisfying the spec's
join-cardinality precondition (and read from nonempty estimator tables,
without which the source's division raises). -/
theorem power_values_in_unit_interval
    (pops : List String) (numInds : List ℕ) (numResample : ℕ)
    (cts : List String)
    (readMeq : String → String → ℕ → ℕ → Option (List MeqRow))
    (readMem : String → String → ℕ → ℕ → Option (List MemRow))
    (result : List ResultRec)
    (hrun : powerCurve pops numInds numResample cts readMeq readMem = some result)
    (htables : ∀ p ct n r meq mem, readMeq p ct n r = some meq →
      readMem p ct n r = some mem →
      mem ≠ [] ∧ ∀ m ∈ mem, (meq.filter (matchKey m)).length ≤ 1) :
    ∀ rec ∈ result, 0 ≤ rec.power ∧ rec.power ≤ 1 := by
  intro rec hrec
  obtain ⟨c, _, recs, hbody, hin⟩ :=
    runConditions_mem_source (conditionRecords readMeq readMem) _ result hrun rec hrec
  rw [conditionRecords] at hbody
  cases hq : readMeq c.1 c.2.2.2 c.2.1 c.2.2.1 with
  | none => rw [hq] at hbody; cases hbody
  | some meq =>
    rw [hq] at hbody
    cases hm : readMem c.1 c.2.2.2 c.2.1 c.2.2.1 with
    | none => rw [hm] at hbody; cases hbody
    | some mem =>
      rw [hm] at hbody
      cases hbody
      obtain ⟨hne, hcard⟩ := htables c.1 c.2.2.2 c.2.1 c.2.2.1 meq mem hq hm
      have hb := power_bounds_aux mem meq hcard hne
      simp only [List.mem_cons, List.not_mem_nil, or_false] at hin
      rcases hin with rfl | rfl
      · exact hb.1
      · exact hb.2

/-- Witness for C1 at concrete tables and a single condition. -/
theorem power_values_in_unit_interval_witness :
    0 ≤ (⟨"asian", 50, 0, "B", "Pseudobulk",
          pseudobulkPower [⟨"s1", "g1", 1/2⟩] []⟩ : ResultRec).power ∧
    (⟨"asian", 50, 0, "B", "Pseudobulk",
          pseudobulkPower [⟨"s1", "g1", 1/2⟩] []⟩ : ResultRec).power ≤ 1 :=
  power_values_in_unit_interval ["asian"] [50] 1 ["B"]
    (fun _ _ _ _ => some []) (fun _ _ _ _ => some [⟨"s1", "g1", 1/2⟩])
    [⟨"asian", 50, 0, "B", "Pseudobulk", pseudobulkPower [⟨"s1", "g1", 1/2⟩] []⟩,
     ⟨"asian", 50, 0, "B", "memento", mementoPower [⟨"s1", "g1", 1/2⟩]⟩]
    rfl
    (fun p ct n r meq mem hq hm => by
      cases hq; cases hm
      exact ⟨by simp, by simp⟩)
    _ (List.mem_cons_self _ _)

/-- A loop whose body fails on some enumerated condition produces no
result at all (shared helper). -/
theorem runConditions_eq_none (body : Cond → Option (List ResultRec)) :
    ∀ l : List Cond, (∃ c ∈ l, body c = none) →
      runConditions body l = none := by
  intro l
  induction l with
  | nil => rintro ⟨c, hc, _⟩; cases hc
  | cons c rest ih =>
    rintro ⟨c', hc', hfail⟩
    rw [runConditions]
    rcases List.mem_cons.mp hc' with rfl | hc'
    · rw [hfail]
    · cases hb : body c with
      | none => rfl
      | some recs => rw [ih ⟨c', hc', hfail⟩]

/-- C8: the power-curve loop has no error handling — if reading either
per-condition file fails for any enumerated condition, the whole
computation propagates the failure and produces no result table (no retry,
fallback, or partial table). -/
theorem power_curve_halts_on_read_failure
    (pops : List String) (numInds : List ℕ) (numResample : ℕ)
    (cts : List String)
    (readMeq : String → String → ℕ → ℕ → Option (List MeqRow))
    (readMem : String → String → ℕ → ℕ → Option (List MemRow))
    (hfail : ∃ c ∈ conditions pops numInds numResample cts,
      readMeq c.1 c.2.2.2 c.2.1 c.2.2.1 = none ∨
      readMem c.1 c.2.2.2 c.2.1 c.2.2.1 = none) :
    powerCurve pops numInds numResample cts readMeq readMem = none := by
  obtain ⟨c, hc, hf⟩ := hfail
  apply runConditions_eq_none
  refine ⟨c, hc, ?_⟩
  rw [conditionRecords]
  rcases hf with hf | hf
  · rw [hf]
  · cases hq : readMeq c.1 c.2.2.2 c.2.1 c.2.2.1 with
    | none => rfl
    | some meq => rw [hf]

/-- A loop whose body always succeeds produces the concatenation of the
per-condition records, in loop order (shared helper). -/
theorem runConditions_total (body : Cond → Option (List ResultRec))
    (f : Cond → List ResultRec) (hb : ∀ c, body c = some (f c)) :
    ∀ l : List Cond, runConditions body l = some (l.flatMap f) := by
  intro l
  induction l with
  | nil => rfl
  | cons c rest ih => rw [runConditions, hb c, ih, List.flatMap_cons]

/-- A flatMap of pairwise-disjoint duplicate-free blocks over a
duplicate-free list is duplicate-free (shared helper). -/
theorem nodup_flatMap_disjoint {α β : Type} (l : List α) (f : α → List β)
    (hn : ∀ a, (f a).Nodup) (hd : ∀ a b, a ≠ b → (f a).Disjoint (f b))
    (hl : l.Nodup) : (l.flatMap f).Nodup := by
  rw [List.nodup_flatMap]
  exact ⟨fun a _ => hn a, hl.imp fun hab => hd _ _ hab⟩

/-- Membership in the nested loop enumeration is componentwise
membership (shared helper). -/
theorem mem_conditions {pops : List String} {numInds : List ℕ} {nR : ℕ}
    {cts : List String} {p : String} {n r : ℕ} {ct : String} :
    ((p, n, r, ct) : Cond) ∈ conditions pops numInds nR cts ↔
      p ∈ pops ∧ n ∈ numInds ∧ r < nR ∧ ct ∈ cts := by
  simp [conditions, List.mem_product, List.mem_range]

/-- The loop enumeration has no duplicate condition when the input lists
have no duplicates (shared helper). -/
theorem conditions_nodup {pops : List String} {numInds : List ℕ} {nR : ℕ}
    {cts : List String} (h1 : pops.Nodup) (h2 : numInds.Nodup)
    (h3 : cts.Nodup) : (conditions pops numInds nR cts).Nodup :=
  h1.product (h2.product ((List.nodup_range nR).product h3))

/-- The two labels of one condition differ (shared helper). -/
theorem condLabels_nodup (c : Cond) : (condLabels c).Nodup := by
  simp [condLabels]

/-- A label determines its condition (shared helper). -/
theorem condLabels_proj {c : Cond} {x : String × ℕ × ℕ × String × String}
    (hx : x ∈ condLabels c) : (x.1, x.2.1, x.2.2.1, x.2.2.2.1) = c := by
  rcases List.mem_cons.mp hx with rfl | hx
  · rfl
  rcases List.mem_cons.mp hx with rfl | hx
  · rfl
  cases hx

/-- C7: when every per-condition read succeeds, the loop produces the
result table of the total reads, which has exactly one record per element
of populations × individual counts × resample indices × cell types ×
the two methods — `2 × |pops| × |num_inds| × num_resample × |cts|`
records in all, each labelled by its condition tuple and method, with no
label repeated (provided the enumerated input lists are duplicate-free, as
in the notebook). -/
theorem power_curve_cartesian (pops : List String) (numInds : List ℕ)
    (numResample : ℕ) (cts : List String)
    (fMeq : String → String → ℕ → ℕ → List MeqRow)
    (fMem : String → String → ℕ → ℕ → List MemRow)
    (h1 : pops.Nodup) (h2 : numInds.Nodup) (h3 : cts.Nodup) :
    powerCurve pops numInds numResample cts
        (fun p ct n r => some (fMeq p ct n r))
        (fun p ct n r => some (fMem p ct n r)) =
      some (powerCurveTotal pops numInds numResample cts fMeq fMem) ∧
    (powerCurveTotal pops numInds numResample cts fMeq fMem).length =
      2 * (pops.length * (numInds.length * (numResample * cts.length))) ∧
    ((powerCurveTotal pops numInds numResample cts fMeq fMem).map
        recordLabel).Nodup ∧
    (∀ p n r ct, p ∈ pops → n ∈ numInds → r < numResample → ct ∈ cts →
      (p, n, r, ct, "Pseudobulk") ∈
        (powerCurveTotal pops numInds numResample cts fMeq fMem).map
          recordLabel ∧
      (p, n, r, ct, "memento") ∈
        (powerCurveTotal pops numInds numResample cts fMeq fMem).map
          recordLabel) := by
  have hlab : (powerCurveTotal pops numInds numResample cts fMeq fMem).map
      recordLabel = (conditions pops numInds numResample cts).flatMap
        condLabels := by
    rw [powerCurveTotal, List.map_flatMap]
    rfl
  refine ⟨?_, ?_, ?_, ?_⟩
  · exact runConditions_total _ (totalRecords fMeq fMem) (fun c => rfl) _
  · rw [powerCurveTotal, List.length_flatMap]
    have hconst : List.length ∘ totalRecords fMeq fMem = fun _ => 2 := rfl
    rw [hconst]
    simp only [List.map_const', List.sum_replicate, smul_eq_mul]
    rw [Nat.mul_comm]
    simp [conditions, List.length_product, List.length_range]
  · rw [hlab]
    exact nodup_flatMap_disjoint _ condLabels condLabels_nodup
      (fun a b hab x hxa hxb =>
        hab ((condLabels_proj hxa).symm.trans (condLabels_proj hxb)))
      (conditions_nodup h1 h2 h3)
  · intro p n r ct hp hn hr hct
    rw [hlab]
    have hc : ((p, n, r, ct) : Cond) ∈ conditions pops numInds numResample cts :=
      mem_conditions.mpr ⟨hp, hn, hr, hct⟩
    constructor
    · exact List.mem_flatMap.mpr ⟨(p, n, r, ct), hc, by simp [condLabels]⟩
    · exact List.mem_flatMap.mpr ⟨(p, n, r, ct), hc, by simp [condLabels]⟩

/-- Witness for C7 at concrete inputs: the row count is the full product. -/
theorem power_curve_cartesian_witness :
    (powerCurveTotal ["asian"] [50, 60] 2 ["B"] (fun _ _ _ _ => [])
        (fun _ _ _ _ => [])).length =
      2 * ((["asian"] : List String).length *
        (([50, 60] : List ℕ).length * (2 * (["B"] : List String).length))) :=
  (power_curve_cartesian ["asian"] [50, 60] 2 ["B"] (fun _ _ _ _ => [])
    (fun _ _ _ _ => []) (by decide) (by decide) (by decide)).2.1

/-- Witness for C8: with a single condition whose MatrixEQTL file is
missing, the computation yields no table. -/
theorem power_curve_halts_on_read_failure_witness :
    powerCurve ["asian"] [50] 1 ["B"] (fun _ _ _ _ => none)
      (fun _ _ _ _ => some []) = none :=
  power_curve_halts_on_read_failure ["asian"] [50] 1 ["B"]
    (fun _ _ _ _ => none) (fun _ _ _ _ => some [])
    ⟨("asian", 50, 0, "B"), by decide, Or.inl rfl⟩

/-- C3: the shrinkage-adjusted correlation matrix is exactly the spec's
closed-form adjustment — with `sf` the per-cell size-factor vector of the
count matrix, every `adj.vec[i]` is
`sqrt(var(estimate_i*sf)/(var(estimate_i*sf) + mean(se_i^2*sf^2)))`, and
`saver.cor` is the elementwise product of `temp.cor` with the outer
product `outer(adj.vec, adj.vec)`. -/
theorem saver_shrinkage_closed_form {g c : ℕ}
    (data estimate se : Fin g → Fin c → ℝ) :
    (∀ i, adjVec Real.sqrt estimate se (sf data) i =
       Real.sqrt (rVar (fun j => estimate i j * sf data j) /
         (rVar (fun j => estimate i j * sf data j) +
           rMean (fun j => se i j ^ 2 * sf data j ^ 2)))) ∧
    (∀ i j, saverCor Real.sqrt estimate se (sf data) i j =
       tempCor Real.sqrt estimate (sf data) i j *
         (adjVec Real.sqrt estimate se (sf data) i *
           adjVec Real.sqrt estimate se (sf data) j)) :=
  ⟨fun _ => rfl, fun _ _ => rfl⟩

/-- The sample variance is nonnegative (shared helper). -/
theorem rVar_nonneg {n : ℕ} (x : Fin n → ℝ) : 0 ≤ rVar x :=
  div_nonneg (Finset.sum_nonneg fun _ _ => sq_nonneg _) (Nat.cast_nonneg _)

/-- The mean of a pointwise-nonnegative vector is nonnegative (shared
helper). -/
theorem rMean_nonneg {n : ℕ} (x : Fin n → ℝ) (h : ∀ i, 0 ≤ x i) :
    0 ≤ rMean x :=
  div_nonneg (Finset.sum_nonneg fun i _ => h i) (Nat.cast_nonneg _)

/-- Each per-gene reliability factor lies in `[0, 1]` (shared helper). -/
theorem adjVec_mem_unit {g c : ℕ} (estimate se : Fin g → Fin c → ℝ)
    (sfv : Fin c → ℝ) (i : Fin g) :
    0 ≤ adjVec Real.sqrt estimate se sfv i ∧
      adjVec Real.sqrt estimate se sfv i ≤ 1 := by
  refine ⟨Real.sqrt_nonneg _, Real.sqrt_le_one.mpr ?_⟩
  have hm : 0 ≤ rMean fun j => se i j ^ 2 * sfv j ^ 2 :=
    rMean_nonneg _ fun j => mul_nonneg (sq_nonneg _) (sq_nonneg _)
  have hv : 0 ≤ rVar fun j => estimate i j * sfv j := rVar_nonneg _
  exact div_le_one_of_le₀ (le_add_of_nonneg_right hm) (add_nonneg hv hm)

/-- C4: given a raw correlation matrix `temp.cor` that is symmetric with
entries in `[-1, 1]` (and the always-nonnegative variance and squared
standard-error terms), the shrinkage-adjusted matrix
`saver.cor = temp.cor * outer(adj.vec, adj.vec)` is symmetric with every
entry in `[-1, 1]`. -/
theorem saver_cor_symmetric_bounded {g c : ℕ}
    (estimate se : Fin g → Fin c → ℝ) (sfv : Fin c → ℝ)
    (hsym : ∀ i j, tempCor Real.sqrt estimate sfv i j =
      tempCor Real.sqrt estimate sfv j i)
    (hbound : ∀ i j, -1 ≤ tempCor Real.sqrt estimate sfv i j ∧
      tempCor Real.sqrt estimate sfv i j ≤ 1) :
    (∀ i j, saverCor Real.sqrt estimate se sfv i j =
      saverCor Real.sqrt estimate se sfv j i) ∧
    (∀ i j, -1 ≤ saverCor Real.sqrt estimate se sfv i j ∧
      saverCor Real.sqrt estimate se sfv i j ≤ 1) := by
  have happly : ∀ i j, saverCor Real.sqrt estimate se sfv i j =
      tempCor Real.sqrt estimate sfv i j *
        (adjVec Real.sqrt estimate se sfv i * adjVec Real.sqrt estimate se sfv j) :=
    fun _ _ => rfl
  constructor
  · intro i j
    rw [happly i j, happly j i, hsym i j]
    ring
  · intro i j
    obtain ⟨hai0, hai1⟩ := adjVec_mem_unit estimate se sfv i
    obtain ⟨haj0, haj1⟩ := adjVec_mem_unit estimate se sfv j
    obtain ⟨hb1, hb2⟩ := hbound i j
    rw [happly i j]
    constructor <;> nlinarith [hai0, hai1, haj0, haj1, hb1, hb2,
      mul_nonneg hai0 haj0]

/-- Witness for C4 at the zero matrices, whose raw correlation matrix is
identically zero. -/
theorem saver_cor_symmetric_bounded_witness :
    -1 ≤ saverCor Real.sqrt (fun (_ : Fin 1) (_ : Fin 1) => (0 : ℝ))
        (fun _ _ => 0) (fun _ => 0) 0 0 ∧
      saverCor Real.sqrt (fun (_ : Fin 1) (_ : Fin 1) => (0 : ℝ))
        (fun _ _ => 0) (fun _ => 0) 0 0 ≤ 1 :=
  (saver_cor_symmetric_bounded (fun _ _ => 0) (fun _ _ => 0) (fun _ => 0)
    (fun i j => by rw [Subsingleton.elim i j])
    (fun i j => by
      constructor <;> simp [tempCor, pearson, rCov, rMean, sweepScale])).2 0 0

/-- Witness for C2 at concrete tables. -/
theorem leftMerge_one_row_per_left_row_witness :
    (leftMerge [⟨"s1", "g1", 1/2⟩] [⟨"s1", "g1", 1/100⟩, ⟨"s2", "g1", 1⟩]).length
      = ([(⟨"s1", "g1", 1/2⟩ : MemRow)]).length :=
  (leftMerge_one_row_per_left_row [⟨"s1", "g1", 1/2⟩]
    [⟨"s1", "g1", 1/100⟩, ⟨"s2", "g1", 1⟩] (by simp [matchKey])).2


